import Mathlib

set_option maxRecDepth 8000

/-!
Verification development for the batch file-protection pipeline
(`src/code.py`, the richest variant of the repository).

The embedding below translates the Python source into Lean:
pure string computations become Lean functions on `String`/`List Char`
(character classification is ASCII, matching the source's intent of
`A-Z/a-z` and `0-9`), the filesystem becomes an association list from
paths to entries, the external 7-Zip engine becomes an oracle mapping a
command line to a process result, and exceptions become explicit error
values threaded through each function.
-/

/-! ### Password manager: `generate_strong_password` and `validate_password_policy` -/

/-- Lowercase half of Python `string.ascii_letters`. -/
def lowerChars : List Char := "abcdefghijklmnopqrstuvwxyz".data

/-- Uppercase half of Python `string.ascii_letters`. -/
def upperChars : List Char := "ABCDEFGHIJKLMNOPQRSTUVWXYZ".data

/-- Python `string.digits`. -/
def digitChars : List Char := "0123456789".data

/-- Python `string.punctuation` (32 ASCII punctuation characters). -/
def punctuationChars : List Char :=
  ['!', '"', '#', '$', '%', '&', Char.ofNat 39, '(', ')', '*', '+', ',', '-', '.', '/',
   ':', ';', '<', '=', '>', '?', '@', '[', '\\', ']', Char.ofNat 94, '_', Char.ofNat 96,
   Char.ofNat 123, '|', Char.ofNat 125, Char.ofNat 126]

/-- Alphabet built in `generate_strong_password`:
`string.ascii_letters + string.digits + string.punctuation` with the four
whitespace-removing `str.replace` calls applied (single-character `replace`
by the empty string is a filter). -/
def cleanedAlphabet : List Char :=
  ((((lowerChars ++ upperChars ++ digitChars ++ punctuationChars).filter (fun c => c != ' ')).filter
      (fun c => c != Char.ofNat 9)).filter (fun c => c != Char.ofNat 10)).filter
    (fun c => c != Char.ofNat 13)

/-- Embedding of `generate_strong_password` (`src/code.py` lines 61-65).
`secrets.choice` is modelled by the choice oracle `choice`: the k-th
character of the result is `choice k`.  A string is a possible output of
the Python function exactly when it is `generate_strong_password len choice`
for some `choice` whose values all lie in `cleanedAlphabet`. -/
def generate_strong_password (length : Nat) (choice : Nat → Char) : String :=
  ⟨(List.range length).map choice⟩

/-- Which rule of the password policy a `validate_password_policy` result
names; each constructor corresponds 1-1 to one of the returned message
strings of the source (`ok` to the `"OK"` of the success case). -/
inductive PolicyReason where
  | ok
  | tooShort
  | needUpper
  | needLetters
  | needDigits
  | repeatChar (c : Char)
deriving DecidableEq, Repr

/-- Helper embedding the repeated-character scan of
`validate_password_policy`: walk the string keeping running counts and
return the first character whose running count exceeds two. -/
def firstOverTwice : List Char → (Char → Nat) → Option Char
  | [], _ => none
  | c :: rest, counts =>
    let n := counts c + 1
    if n > 2 then some c
    else firstOverTwice rest (fun x => if x = c then n else counts x)

/-- Embedding of `validate_password_policy` (`src/code.py` lines 70-93).
The counting generators `sum(1 for c in pw if c.isalpha())` etc. are
`List.countP`; the reason string is abstracted to `PolicyReason`. -/
def validate_password_policy (pw : String) : Bool × PolicyReason :=
  if pw.length < 8 then (false, .tooShort)
  else
    let letters := pw.data.countP (fun c => c.isAlpha)
    let digits := pw.data.countP (fun c => c.isDigit)
    let uppers := pw.data.countP (fun c => c.isUpper)
    if uppers < 1 then (false, .needUpper)
    else if letters < 4 then (false, .needLetters)
    else if digits < 4 then (false, .needDigits)
    else
      match firstOverTwice pw.data (fun _ => 0) with
      | some c => (false, .repeatChar c)
      | none => (true, .ok)

/-! ### Decimal rendering (Python `str` of a nonnegative int, used by
f-strings in `ensure_unique_path` and in engine error messages) -/

/-- Digits of `n` in base ten, most significant first, with explicit fuel
(`n + 1` is always enough); mirrors the decimal rendering of Python
`str(i)` for a nonnegative `i`. -/
def pyStrAux : Nat → Nat → List Char
  | 0, _ => []
  | fuel + 1, n =>
    if n < 10 then [Nat.digitChar n]
    else pyStrAux fuel (n / 10) ++ [Nat.digitChar (n % 10)]

/-- Decimal rendering of a natural number, as Python `str` produces it. -/
def pyStr (n : Nat) : String := ⟨pyStrAux (n + 1) n⟩

/-- Value reconstruction used to prove `pyStr` injective. -/
def digitsVal (l : List Char) : Nat :=
  l.foldl (fun a c => 10 * a + (c.toNat - 48)) 0

theorem digitsVal_append_single (l : List Char) (c : Char) :
    digitsVal (l ++ [c]) = 10 * digitsVal l + (c.toNat - 48) := by
  simp [digitsVal, List.foldl_append]

theorem digitChar_toNat_sub (n : Nat) (h : n < 10) :
    (Nat.digitChar n).toNat - 48 = n := by
  interval_cases n <;> rfl

theorem digitsVal_pyStrAux (fuel : Nat) :
    ∀ n : Nat, n < 10 ^ fuel → digitsVal (pyStrAux fuel n) = n := by
  induction fuel with
  | zero =>
    intro n hn
    simp only [pow_zero, Nat.lt_one_iff] at hn
    subst hn
    rfl
  | succ fuel ih =>
    intro n hn
    by_cases h10 : n < 10
    · simp [pyStrAux, h10, digitsVal, digitChar_toNat_sub n h10]
    · have hdiv : n / 10 < 10 ^ fuel := by
        rw [Nat.div_lt_iff_lt_mul (by norm_num : (0:Nat) < 10)]
        calc n < 10 ^ (fuel + 1) := hn
        _ = 10 ^ fuel * 10 := by ring
      simp only [pyStrAux, h10, if_false, digitsVal_append_single]
      rw [ih (n / 10) hdiv, digitChar_toNat_sub (n % 10) (Nat.mod_lt n (by norm_num))]
      omega

theorem pyStr_inj {m n : Nat} (h : pyStr m = pyStr n) : m = n := by
  have hd : pyStrAux (m + 1) m = pyStrAux (n + 1) n := congrArg String.data h
  have hm : m < 10 ^ (m + 1) := by
    calc m < 2 ^ m := Nat.lt_two_pow m
    _ ≤ 10 ^ m := Nat.pow_le_pow_left (by norm_num) m
    _ ≤ 10 ^ (m + 1) := Nat.pow_le_pow_right (by norm_num) (Nat.le_succ m)
  have hn : n < 10 ^ (n + 1) := by
    calc n < 2 ^ n := Nat.lt_two_pow n
    _ ≤ 10 ^ n := Nat.pow_le_pow_left (by norm_num) n
    _ ≤ 10 ^ (n + 1) := Nat.pow_le_pow_right (by norm_num) (Nat.le_succ n)
  calc m = digitsVal (pyStrAux (m + 1) m) := (digitsVal_pyStrAux (m + 1) m hm).symm
  _ = digitsVal (pyStrAux (n + 1) n) := by rw [hd]
  _ = n := digitsVal_pyStrAux (n + 1) n hn

/-! ### Unique-path resolver: `ensure_unique_path` -/

/-- Index of the last occurrence of `c` in `l` (`str.rfind` of Python,
restricted to single characters), `none` when absent. -/
def lastIndexOf (l : List Char) (c : Char) : Option Nat :=
  ((l.enum.filter (fun p => p.2 == c)).map (fun p => p.1)).getLast?

/-- Embedding of `os.path.splitext` for POSIX paths (CPython
`genericpath._splitext` with `sep = "/"` and `extsep = "."`): the
extension starts at the last dot that lies after the last separator,
unless every character between the separator and that dot is itself a
dot (leading dots of the basename never start an extension). -/
def splitext (p : String) : String × String :=
  let s := p.data
  let sepI : Int := match lastIndexOf s '/' with | none => -1 | some k => (k : Int)
  let dotI : Int := match lastIndexOf s '.' with | none => -1 | some k => (k : Int)
  if sepI < dotI then
    let start := (sepI + 1).toNat
    let stop := dotI.toNat
    if ((s.drop start).take (stop - start)).any (fun c => c != '.') then
      (⟨s.take stop⟩, ⟨s.drop stop⟩)
    else (p, "")
  else (p, "")

/-- Disambiguated candidate path number `i`: Python `f"{base}.{i}{ext}"`. -/
def candidateAt (base ext : String) (i : Nat) : String :=
  base ++ "." ++ pyStr i ++ ext

/-- Fuelled embedding of the probing loop of `ensure_unique_path`:
try `candidateAt base ext i`, `i = start, start+1, ...`, returning the
first candidate not occupied. -/
def uniqueLoop (occ : String → Bool) (base ext : String) : Nat → Nat → Option String
  | 0, _ => none
  | fuel + 1, i =>
    let cand := candidateAt base ext i
    if occ cand then uniqueLoop occ base ext fuel (i + 1) else some cand

/-- Embedding of `ensure_unique_path` (`src/code.py` lines 278-289).
`occ` models `os.path.exists`; `bound` is any number strictly greater
than the number of occupied paths, which makes the fuelled search total:
the `none` fallback is unreachable whenever `bound` suffices
(`uniqueLoop_isSome`), so this function computes exactly what the
unbounded `while True` loop of the source computes. -/
def ensure_unique_path (occ : String → Bool) (bound : Nat) (desired : String) : String :=
  if occ desired = false then desired
  else
    let be := splitext desired
    match uniqueLoop occ be.1 be.2 bound 1 with
    | some p => p
    | none => desired

theorem candidateAt_inj {base ext : String} {i j : Nat}
    (h : candidateAt base ext i = candidateAt base ext j) : i = j := by
  have hd := congrArg String.data h
  simp only [candidateAt, String.data_append] at hd
  have h1 := List.append_cancel_right hd
  have h2 := List.append_cancel_left h1
  have h3 : pyStr i = pyStr j := by
    cases hp : pyStr i
    cases hq : pyStr j
    rw [hp, hq] at h2
    exact congrArg String.mk h2
  exact pyStr_inj h3

theorem uniqueLoop_none_occ (occ : String → Bool) (base ext : String) :
    ∀ fuel start, uniqueLoop occ base ext fuel start = none →
      ∀ k, k < fuel → occ (candidateAt base ext (start + k)) = true := by
  intro fuel
  induction fuel with
  | zero => intro start _ k hk; omega
  | succ fuel ih =>
    intro start h k hk
    simp only [uniqueLoop] at h
    by_cases ho : occ (candidateAt base ext start) = true
    · rw [if_pos ho] at h
      cases k with
      | zero => simpa using ho
      | succ k =>
        have hk2 := ih (start + 1) h k (by omega)
        have : start + 1 + k = start + (k + 1) := by omega
        rwa [this] at hk2
    · rw [if_neg ho] at h
      exact absurd h (by simp)

theorem uniqueLoop_some_spec (occ : String → Bool) (base ext : String) :
    ∀ fuel start p, uniqueLoop occ base ext fuel start = some p →
      ∃ k, k < fuel ∧ p = candidateAt base ext (start + k) ∧ occ p = false ∧
        ∀ j, j < k → occ (candidateAt base ext (start + j)) = true := by
  intro fuel
  induction fuel with
  | zero => intro start p h; simp [uniqueLoop] at h
  | succ fuel ih =>
    intro start p h
    simp only [uniqueLoop] at h
    by_cases ho : occ (candidateAt base ext start) = true
    · rw [if_pos ho] at h
      obtain ⟨k, hk, hp, hfree, hprev⟩ := ih (start + 1) p h
      refine ⟨k + 1, by omega, by rwa [show start + (k + 1) = start + 1 + k by omega], hfree, ?_⟩
      intro j hj
      cases j with
      | zero => simpa using ho
      | succ j =>
        have := hprev j (by omega)
        rwa [show start + (j + 1) = start + 1 + j by omega]
    · rw [if_neg ho] at h
      refine ⟨0, by omega, ?_, ?_, by omega⟩
      · simpa using (Option.some_inj.mp h).symm
      · have := Option.some_inj.mp h
        subst this
        simpa using ho

theorem uniqueLoop_isSome (occ : String → Bool) (base ext : String) (L : List String)
    (hocc : ∀ p, occ p = true → p ∈ L) (start : Nat) :
    uniqueLoop occ base ext (L.length + 1) start ≠ none := by
  intro hnone
  have hall := uniqueLoop_none_occ occ base ext (L.length + 1) start hnone
  have hsub : ∀ k ∈ Finset.range (L.length + 1),
      candidateAt base ext (start + k) ∈ L.toFinset := by
    intro k hk
    rw [List.mem_toFinset]
    exact hocc _ (hall k (Finset.mem_range.mp hk))
  have hinj : Set.InjOn (fun k => candidateAt base ext (start + k))
      (Finset.range (L.length + 1)) := by
    intro k1 _ k2 _ heq
    have := candidateAt_inj heq
    omega
  have hcard := Finset.card_le_card_of_injOn _ hsub hinj
  rw [Finset.card_range] at hcard
  have := List.toFinset_card_le L
  omega

/-! ### Claims about the password manager -/

theorem firstOverTwice_eq_none_iff (l : List Char) :
    ∀ cnt : Char → Nat, (∀ c, cnt c ≤ 2) →
      (firstOverTwice l cnt = none ↔ ∀ c, cnt c + l.count c ≤ 2) := by
  induction l with
  | nil =>
    intro cnt hcnt
    simp only [firstOverTwice, List.count_nil, Nat.add_zero, true_iff]
    exact hcnt
  | cons a rest ih =>
    intro cnt hcnt
    simp only [firstOverTwice]
    by_cases hgt : cnt a + 1 > 2
    · rw [if_pos hgt]
      constructor
      · intro h; exact absurd h (by simp)
      · intro h
        exfalso
        have ha := h a
        rw [List.count_cons_self] at ha
        omega
    · rw [if_neg hgt]
      have hcnt2 : ∀ c, (fun x => if x = a then cnt a + 1 else cnt x) c ≤ 2 := by
        intro c
        by_cases hc : c = a
        · subst hc; simp; omega
        · simp only [if_neg hc]; exact hcnt c
      rw [ih _ hcnt2]
      refine forall_congr' fun c => ?_
      by_cases hc : c = a
      · subst hc
        rw [List.count_cons_self]
        simp
        omega
      · rw [List.count_cons_of_ne hc]
        simp only [if_neg hc]

/-- Claim C4: `validate_password_policy` accepts exactly the strings with
length at least 8, at least 1 uppercase letter, at least 4 alphabetic
characters, at least 4 digits, and no character occurring more than twice;
on failure the reason names the first violated rule in that order; it
rejects "short1", "alllowercase1234", "ALL12345" and "AAAA1111", and
accepts "AaBb1122". -/
theorem validate_password_policy_spec (pw : String) :
    ((validate_password_policy pw).1 = true ↔
      (8 ≤ pw.length ∧ 1 ≤ pw.data.countP (fun c => c.isUpper) ∧
       4 ≤ pw.data.countP (fun c => c.isAlpha) ∧ 4 ≤ pw.data.countP (fun c => c.isDigit) ∧
       ∀ c : Char, pw.data.count c ≤ 2)) ∧
    ((validate_password_policy pw).2 = PolicyReason.tooShort ↔ pw.length < 8) ∧
    ((validate_password_policy pw).2 = PolicyReason.needUpper ↔
      (8 ≤ pw.length ∧ pw.data.countP (fun c => c.isUpper) < 1)) ∧
    ((validate_password_policy pw).2 = PolicyReason.needLetters ↔
      (8 ≤ pw.length ∧ 1 ≤ pw.data.countP (fun c => c.isUpper) ∧
       pw.data.countP (fun c => c.isAlpha) < 4)) ∧
    ((validate_password_policy pw).2 = PolicyReason.needDigits ↔
      (8 ≤ pw.length ∧ 1 ≤ pw.data.countP (fun c => c.isUpper) ∧
       4 ≤ pw.data.countP (fun c => c.isAlpha) ∧ pw.data.countP (fun c => c.isDigit) < 4)) ∧
    ((∃ c, (validate_password_policy pw).2 = PolicyReason.repeatChar c) ↔
      (8 ≤ pw.length ∧ 1 ≤ pw.data.countP (fun c => c.isUpper) ∧
       4 ≤ pw.data.countP (fun c => c.isAlpha) ∧ 4 ≤ pw.data.countP (fun c => c.isDigit) ∧
       ¬ ∀ c : Char, pw.data.count c ≤ 2)) ∧
    (validate_password_policy "short1").1 = false ∧
    (validate_password_policy "alllowercase1234").1 = false ∧
    (validate_password_policy "ALL12345").1 = false ∧
    (validate_password_policy "AAAA1111").1 = false ∧
    (validate_password_policy "AaBb1122").1 = true := by
  have hnone : firstOverTwice pw.data (fun _ => 0) = none ↔
      ∀ c : Char, pw.data.count c ≤ 2 := by
    have h0 := firstOverTwice_eq_none_iff pw.data (fun _ => 0) (fun c => by simp)
    simpa using h0
  unfold validate_password_policy
  by_cases h1 : pw.length < 8
  · rw [if_pos h1]
    refine ⟨?_, ?_, ?_, ?_, ?_, ?_, by decide, by decide, by decide, by decide, by decide⟩
    · exact iff_of_false (by simp) (fun h => absurd h.1 (by omega))
    · exact iff_of_true rfl h1
    · exact iff_of_false (by simp) (fun h => absurd h.1 (by omega))
    · exact iff_of_false (by simp) (fun h => absurd h.1 (by omega))
    · exact iff_of_false (by simp) (fun h => absurd h.1 (by omega))
    · exact iff_of_false (by simp) (fun h => absurd h.1 (by omega))
  · rw [if_neg h1]
    by_cases h2 : pw.data.countP (fun c => c.isUpper) < 1
    · rw [if_pos h2]
      refine ⟨?_, ?_, ?_, ?_, ?_, ?_, by decide, by decide, by decide, by decide, by decide⟩
      · exact iff_of_false (by simp) (fun h => absurd h.2.1 (by omega))
      · exact iff_of_false (by simp) h1
      · exact iff_of_true rfl ⟨by omega, h2⟩
      · exact iff_of_false (by simp) (fun h => absurd h.2.1 (by omega))
      · exact iff_of_false (by simp) (fun h => absurd h.2.1 (by omega))
      · exact iff_of_false (by simp) (fun h => absurd h.2.1 (by omega))
    · rw [if_neg h2]
      by_cases h3 : pw.data.countP (fun c => c.isAlpha) < 4
      · rw [if_pos h3]
        refine ⟨?_, ?_, ?_, ?_, ?_, ?_, by decide, by decide, by decide, by decide, by decide⟩
        · exact iff_of_false (by simp) (fun h => absurd h.2.2.1 (by omega))
        · exact iff_of_false (by simp) h1
        · exact iff_of_false (by simp) (fun h => h2 h.2)
        · exact iff_of_true rfl ⟨by omega, by omega, h3⟩
        · exact iff_of_false (by simp) (fun h => absurd h.2.2.1 (by omega))
        · exact iff_of_false (by simp) (fun h => absurd h.2.2.1 (by omega))
      · rw [if_neg h3]
        by_cases h4 : pw.data.countP (fun c => c.isDigit) < 4
        · rw [if_pos h4]
          refine ⟨?_, ?_, ?_, ?_, ?_, ?_, by decide, by decide, by decide, by decide, by decide⟩
          · exact iff_of_false (by simp) (fun h => absurd h.2.2.2.1 (by omega))
          · exact iff_of_false (by simp) h1
          · exact iff_of_false (by simp) (fun h => h2 h.2)
          · exact iff_of_false (by simp) (fun h => h3 h.2.2)
          · exact iff_of_true rfl ⟨by omega, by omega, by omega, h4⟩
          · exact iff_of_false (by simp) (fun h => absurd h.2.2.2.1 (by omega))
        · rw [if_neg h4]
          cases hfo : firstOverTwice pw.data (fun _ => 0) with
          | none =>
            have hR : ∀ c : Char, pw.data.count c ≤ 2 := hnone.mp hfo
            refine ⟨?_, ?_, ?_, ?_, ?_, ?_, by decide, by decide, by decide, by decide, by decide⟩
            · exact iff_of_true rfl ⟨by omega, by omega, by omega, by omega, hR⟩
            · exact iff_of_false (by simp) h1
            · exact iff_of_false (by simp) (fun h => h2 h.2)
            · exact iff_of_false (by simp) (fun h => h3 h.2.2)
            · exact iff_of_false (by simp) (fun h => h4 h.2.2.2)
            · exact iff_of_false (by simp) (fun h => h.2.2.2.2 hR)
          | some c =>
            have hnR : ¬ ∀ c : Char, pw.data.count c ≤ 2 := by
              intro hA
              have := hnone.mpr hA
              rw [hfo] at this
              exact absurd this (by simp)
            refine ⟨?_, ?_, ?_, ?_, ?_, ?_, by decide, by decide, by decide, by decide, by decide⟩
            · exact iff_of_false (by simp) (fun h => hnR h.2.2.2.2)
            · exact iff_of_false (by simp) h1
            · exact iff_of_false (by simp) (fun h => h2 h.2)
            · exact iff_of_false (by simp) (fun h => h3 h.2.2)
            · exact iff_of_false (by simp) (fun h => h4 h.2.2.2)
            · exact iff_of_true ⟨c, rfl⟩ ⟨by omega, by omega, by omega, by omega, hnR⟩

/-- Witness for `validate_password_policy_spec`: the concrete acceptance of
"AaBb1122", extracted from the theorem at that input. -/
theorem validate_password_policy_spec_witness :
    (validate_password_policy "AaBb1122").1 = true :=
  (validate_password_policy_spec "AaBb1122").2.2.2.2.2.2.2.2.2.2

/-- Claim C3 counterexample: the all-lowercase string of 24 letters `a` is a
possible output of `generate_strong_password 24` (each `secrets.choice` draw
may pick the alphabet character `a`), yet `validate_password_policy`
rejects it — so not every possible output of GenerateStrong(24) satisfies
the Validate policy. -/
theorem generate_strong_password_policy_counterexample :
    'a' ∈ cleanedAlphabet ∧
    (validate_password_policy (generate_strong_password 24 (fun _ : Nat => 'a'))).1 = false := by
  constructor
  · decide
  · decide

/-- Claim C3 (amended): every possible output of GenerateStrong(24) has
length 24 and therefore always satisfies the length rule of the policy
(the validator never reports it as too short); but it need not satisfy the
whole policy (see the counterexample), so skipping validation for generated
secrets holds only with overwhelming probability, not for every possible
output. -/
theorem generate_strong_password_amended (choice : Nat → Char)
    (h : ∀ n, choice n ∈ cleanedAlphabet) :
    (generate_strong_password 24 choice).length = 24 ∧
    (validate_password_policy (generate_strong_password 24 choice)).2 ≠ PolicyReason.tooShort := by
  have hlen : (generate_strong_password 24 choice).length = 24 := by
    simp [generate_strong_password, String.length]
  refine ⟨hlen, ?_⟩
  unfold validate_password_policy
  rw [if_neg (by omega)]
  by_cases h2 : (generate_strong_password 24 choice).data.countP (fun c => c.isUpper) < 1
  · rw [if_pos h2]; simp
  · rw [if_neg h2]
    by_cases h3 : (generate_strong_password 24 choice).data.countP (fun c => c.isAlpha) < 4
    · rw [if_pos h3]; simp
    · rw [if_neg h3]
      by_cases h4 : (generate_strong_password 24 choice).data.countP (fun c => c.isDigit) < 4
      · rw [if_pos h4]; simp
      · rw [if_neg h4]
        cases hfo : firstOverTwice (generate_strong_password 24 choice).data (fun _ => 0) <;> simp

/-- Witness for `generate_strong_password_amended` at the constant choice
function picking the alphabet character `b`. -/
theorem generate_strong_password_amended_witness :
    (generate_strong_password 24 (fun _ : Nat => 'b')).length = 24 ∧
    (validate_password_policy (generate_strong_password 24 (fun _ : Nat => 'b'))).2 ≠
      PolicyReason.tooShort :=
  generate_strong_password_amended (fun _ => 'b') (fun _ => (by decide : 'b' ∈ cleanedAlphabet))

/-- Claim C5: for every finite set `S` of existing paths, `ensure_unique_path`
returns a path not in `S`; it returns `desired` unchanged when `desired` is
free; and when `desired` is occupied it returns the candidate
`base ++ "." ++ str i ++ ext` for the smallest `i ≥ 1` whose candidate is
free (so the result is a deterministic function of `desired` and `S`). -/
theorem ensure_unique_path_spec (S : List String) (desired : String) :
    ensure_unique_path (fun p => decide (p ∈ S)) (S.length + 1) desired ∉ S ∧
    (desired ∉ S → ensure_unique_path (fun p => decide (p ∈ S)) (S.length + 1) desired = desired) ∧
    (desired ∈ S → ∃ i, 1 ≤ i ∧
      ensure_unique_path (fun p => decide (p ∈ S)) (S.length + 1) desired =
        candidateAt (splitext desired).1 (splitext desired).2 i ∧
      candidateAt (splitext desired).1 (splitext desired).2 i ∉ S ∧
      ∀ j, 1 ≤ j → j < i → candidateAt (splitext desired).1 (splitext desired).2 j ∈ S) := by
  by_cases hd : desired ∈ S
  · have hocc : (fun p => decide (p ∈ S)) desired = false → False := by simp [hd]
    have hform : ensure_unique_path (fun p => decide (p ∈ S)) (S.length + 1) desired =
        match uniqueLoop (fun p => decide (p ∈ S)) (splitext desired).1 (splitext desired).2
          (S.length + 1) 1 with
        | some p => p
        | none => desired := by
      unfold ensure_unique_path
      rw [if_neg (by simp [hd])]
    have hsome := uniqueLoop_isSome (fun p => decide (p ∈ S)) (splitext desired).1
      (splitext desired).2 S (fun p hp => by simpa using hp) 1
    cases hu : uniqueLoop (fun p => decide (p ∈ S)) (splitext desired).1 (splitext desired).2
        (S.length + 1) 1 with
    | none => exact absurd hu hsome
    | some p =>
      obtain ⟨k, _, hp, hfree, hprev⟩ := uniqueLoop_some_spec _ _ _ _ _ _ hu
      have hr : ensure_unique_path (fun p => decide (p ∈ S)) (S.length + 1) desired = p := by
        rw [hform, hu]
      have hpnot : p ∉ S := by simpa using hfree
      refine ⟨by rw [hr]; exact hpnot, fun hcon => absurd hd hcon, fun _ => ?_⟩
      refine ⟨1 + k, by omega, by rw [hr, hp], by rw [← hp]; exact hpnot, ?_⟩
      intro j hj1 hjk
      have := hprev (j - 1) (by omega)
      rw [show 1 + (j - 1) = j by omega] at this
      simpa using this
  · have hr : ensure_unique_path (fun p => decide (p ∈ S)) (S.length + 1) desired = desired := by
      unfold ensure_unique_path
      rw [if_pos (by simp [hd])]
    exact ⟨by rw [hr]; exact hd, fun _ => hr, fun hcon => absurd hcon hd⟩

/-- Witness for `ensure_unique_path_spec`: with the single existing path
"n.zip" and the desired path "n.zip", the resolver yields the first
disambiguated candidate. -/
theorem ensure_unique_path_spec_witness :
    ∃ i, 1 ≤ i ∧
      ensure_unique_path (fun p => decide (p ∈ ["n.zip"])) (["n.zip"].length + 1) "n.zip" =
        candidateAt (splitext "n.zip").1 (splitext "n.zip").2 i ∧
      candidateAt (splitext "n.zip").1 (splitext "n.zip").2 i ∉ ["n.zip"] ∧
      ∀ j, 1 ≤ j → j < i → candidateAt (splitext "n.zip").1 (splitext "n.zip").2 j ∈ ["n.zip"] :=
  (ensure_unique_path_spec ["n.zip"] "n.zip").2.2 (by decide)

/-! ### Filesystem model

The filesystem is an association list from paths to entries.  File
contents are modelled symbolically: a plain byte file, a 7z archive
produced by the engine (recording the stored member name, the member's
content and the password used), or a zip container with its member list.
`os.path.exists` and `os.path.isfile` follow symbolic links (with the
usual bounded link-chain resolution, a chase that fails — like `stat`
with `ELOOP` — once the bound is exhausted), while `os.path.islink`
inspects the entry itself. -/

abbrev FsPath := String

inductive Content where
  | bytes (data : List Nat)
  | enc (memberName : String) (data : Content) (pw : String)
  | zipArchive (members : List (String × Content))

inductive Entry where
  | regular (c : Content)
  | symlink (target : FsPath)
  | dir

abbrev FS := List (FsPath × Entry)

def FS.get (fs : FS) (p : FsPath) : Option Entry :=
  match fs.find? (fun kv => kv.1 == p) with
  | some kv => some kv.2
  | none => none

def FS.set (fs : FS) (p : FsPath) (e : Entry) : FS :=
  (p, e) :: fs.filter (fun kv => kv.1 != p)

def FS.del (fs : FS) (p : FsPath) : FS :=
  fs.filter (fun kv => kv.1 != p)

/-- Maximum number of symlink hops `stat` follows (POSIX `SYMLOOP_MAX`-like
bound; chains longer than this behave as nonexistent, as `os.path.exists`
returns `False` on `ELOOP`). -/
def statFuel : Nat := 40

def FS.statAux (fs : FS) : Nat → FsPath → Option Entry
  | 0, p =>
    match FS.get fs p with
    | some (.symlink _) => none
    | r => r
  | fuel + 1, p =>
    match FS.get fs p with
    | some (.symlink t) => FS.statAux fs fuel t
    | r => r

def FS.stat (fs : FS) (p : FsPath) : Option Entry := FS.statAux fs statFuel p

/-- `os.path.exists`: follows symlinks; a broken (dangling) symlink does
not "exist". -/
def os_path_exists (fs : FS) (p : FsPath) : Bool := (FS.stat fs p).isSome

/-- `os.path.islink`: the entry itself is a symbolic link. -/
def os_path_islink (fs : FS) (p : FsPath) : Bool :=
  match FS.get fs p with
  | some (.symlink _) => true
  | _ => false

/-- `os.path.isfile`: follows symlinks to a regular file. -/
def os_path_isfile (fs : FS) (p : FsPath) : Bool :=
  match FS.stat fs p with
  | some (.regular _) => true
  | _ => false

/-- `os.remove`: unlink the directory entry itself. -/
def os_remove (fs : FS) (p : FsPath) : FS := FS.del fs p

/-- `os.replace`: `rename(2)` semantics — the entry at `src` is moved to
`dst`, atomically replacing whatever directory entry (including a symlink
itself, not its target) was at `dst`. -/
def os_replace (fs : FS) (src dst : FsPath) : FS :=
  match FS.get fs src with
  | some e => FS.set (FS.del fs src) dst e
  | none => fs

/-- `posixpath.basename`: everything after the last slash. -/
def basename (p : FsPath) : String :=
  ⟨p.data.foldl (fun acc c => if c = '/' then [] else acc ++ [c]) []⟩

/-- `posixpath.dirname`: everything before the last slash, with trailing
slashes stripped unless the head is all slashes. -/
def dirname (p : FsPath) : String :=
  match lastIndexOf p.data '/' with
  | none => ""
  | some k =>
    let head := p.data.take (k + 1)
    if head.all (fun c => c == '/') then ⟨head⟩
    else ⟨(head.reverse.dropWhile (fun c => c == '/')).reverse⟩

/-- `posixpath.join` for two components. -/
def pathJoin (a b : FsPath) : FsPath :=
  if b.data.head? = some '/' then b
  else if a = "" ∨ a.data.getLast? = some '/' then a ++ b
  else a ++ "/" ++ b

/-- Python `str.strip` (whitespace at both ends). -/
def pyStrip (s : String) : String :=
  ⟨((s.data.dropWhile Char.isWhitespace).reverse.dropWhile Char.isWhitespace).reverse⟩

/-- Python slicing `s[:2000]` used to bound engine diagnostics. -/
def truncate2000 (s : String) : String := ⟨s.data.take 2000⟩

/-! ### Archive engine adapter -/

/-- Result of one invocation of the external 7-Zip process. -/
structure EngineResult where
  code : Nat
  stderr : String

/-- Oracle for the external engine: maps the full command line to the
process result.  File effects of a successful invocation are modelled in
the adapter functions themselves. -/
abbrev Engine := List String → EngineResult

/-- The engine used by the negative tests: every invocation exits 0
(in particular a decrypt with the wrong password "succeeds" — the
regressed-engine scenario of the self-test claims). -/
def engAll0 : Engine := fun _ => ⟨0, ""⟩

/-- Embedding of `encrypt_with_7z` (`src/code.py` lines 294-322).  On
engine success the temporary archive appears at `out ++ ".7z"` holding the
source file's content under its base name, encrypted with `pw`; then the
pre-existing-target check and the `os.replace` move mirror the source.
Returns the raised error message (if any) and the resulting filesystem.
`srcContentFor` reads the source file's content, which a successful
engine invocation stores into the temporary archive. -/
def srcContentFor (fs : FS) (p : FsPath) : Content :=
  match FS.stat fs p with
  | some (.regular c) => c
  | _ => Content.bytes []

/-- Embedding of the body of `encrypt_with_7z`; see `srcContentFor` above. -/
def encrypt_with_7z (eng : Engine) (fs : FS) (sevenZip in_file out_no_ext_path pw : String) :
    Option String × FS :=
  let tmp := out_no_ext_path ++ ".7z"
  let cmd := [sevenZip, "a", "-t7z", "-p" ++ pw, "-mhe=on", tmp, in_file]
  let r := eng cmd
  if r.code ≠ 0 then
    (some ("7z failed (code " ++ pyStr r.code ++ "): " ++ truncate2000 (pyStrip r.stderr)), fs)
  else
    let fs1 := FS.set fs tmp (.regular (.enc (basename in_file) (srcContentFor fs in_file) pw))
    if os_path_exists fs1 out_no_ext_path then
      if os_path_islink fs1 out_no_ext_path || !os_path_isfile fs1 out_no_ext_path then
        (some ("Refusing to overwrite non-regular file: " ++ out_no_ext_path), fs1)
      else
        (none, os_replace (os_remove fs1 out_no_ext_path) tmp out_no_ext_path)
    else
      (none, os_replace fs1 tmp out_no_ext_path)

/-! ### Container wrapper -/

/-- Where `open(p, "w")` (as performed by `zipfile.ZipFile(p, "w")`) lands:
follow symlinks; create at a nonexistent chain end, truncate a regular
file; fail on a directory or an exhausted link chain. -/
def openForWrite (fs : FS) : Nat → FsPath → Option FsPath
  | 0, _ => none
  | fuel + 1, p =>
    match FS.get fs p with
    | none => some p
    | some (.regular _) => some p
    | some .dir => none
    | some (.symlink t) => openForWrite fs fuel t

/-- Embedding of `wrap_in_zip` (`src/code.py` lines 327-335): refuse a
non-regular payload, then write a fresh zip container at
`final_zip_path` whose sole member is the payload's base name with the
payload's content.  Note `zipfile.ZipFile(final_zip_path, "w")` truncates
and rewrites whatever regular file is already there. -/
def wrap_in_zip (fs : FS) (no_ext_7z_path final_zip_path : FsPath) : Option String × FS :=
  if os_path_islink fs no_ext_7z_path || !os_path_isfile fs no_ext_7z_path then
    (some ("Refusing to zip non-regular file: " ++ no_ext_7z_path), fs)
  else
    let arcname := basename no_ext_7z_path
    let payloadContent := match FS.stat fs no_ext_7z_path with
      | some (.regular c) => c
      | _ => Content.bytes []
    match openForWrite fs statFuel final_zip_path with
    | none => (some ("could not open zip for writing: " ++ final_zip_path), fs)
    | some tgt =>
      (none, FS.set fs tgt (.regular (.zipArchive [(arcname, payloadContent)])))

/-- Embedding of `extract_single_member_zip` (`src/code.py` lines 339-347):
require exactly one member, extract it into `out_dir` and return the
extracted path.  Any other member count is a hard error. -/
def extract_single_member_zip (fs : FS) (zip_path out_dir : FsPath) :
    Except String (FS × FsPath) :=
  match FS.stat fs zip_path with
  | some (.regular (.zipArchive members)) =>
    match members with
    | [(name, c)] =>
      let target := pathJoin out_dir name
      .ok (FS.set fs target (.regular c), target)
    | other => .error ("Self-test expected 1 zip member, got " ++ pyStr other.length)
  | _ => .error ("bad zip file: " ++ zip_path)

/-- Embedding of `decrypt_7z_payload` (`src/code.py` lines 352-366): the
engine is invoked with the extract command; on exit 0 the archive's stored
member is written into `out_dir`. -/
def decrypt_7z_payload (eng : Engine) (fs : FS) (sevenZip payload_path out_dir pw : String) :
    Option String × FS :=
  let cmd := [sevenZip, "x", "-y", "-t7z", "-p" ++ pw, "-o" ++ out_dir, payload_path]
  let r := eng cmd
  if r.code ≠ 0 then
    (some ("7z decrypt failed (code " ++ pyStr r.code ++ "): " ++ truncate2000 (pyStrip r.stderr)),
     fs)
  else
    match FS.stat fs payload_path with
    | some (.regular (.enc name data _)) =>
      (none, FS.set fs (pathJoin out_dir name) (.regular data))
    | _ => (none, fs)

/-! ### Basic lemmas about the filesystem model -/

theorem find_filter_ne (fs : FS) (p q : FsPath) (h : q ≠ p) :
    (fs.filter (fun kv => kv.1 != p)).find? (fun kv => kv.1 == q) =
    fs.find? (fun kv => kv.1 == q) := by
  induction fs with
  | nil => rfl
  | cons kv rest ih =>
    by_cases hk : kv.1 = p
    · rw [List.filter_cons_of_neg (by simp [hk])]
      rw [ih, List.find?_cons_of_neg _ (by simp [hk]; exact fun hq => h (hq ▸ rfl))]
    · rw [List.filter_cons_of_pos (by simp [hk])]
      by_cases hq : kv.1 = q
      · rw [List.find?_cons_of_pos _ (by simp [hq]), List.find?_cons_of_pos _ (by simp [hq])]
      · rw [List.find?_cons_of_neg _ (by simp [hq]), List.find?_cons_of_neg _ (by simp [hq]), ih]

theorem FS.get_set_self (fs : FS) (p : FsPath) (e : Entry) :
    FS.get (FS.set fs p e) p = some e := by
  simp [FS.get, FS.set, List.find?_cons_of_pos]

theorem FS.get_set_ne (fs : FS) (p q : FsPath) (e : Entry) (h : q ≠ p) :
    FS.get (FS.set fs p e) q = FS.get fs q := by
  simp only [FS.get, FS.set]
  rw [List.find?_cons_of_neg _ (by simp; exact fun hq => h hq.symm), find_filter_ne fs p q h]

theorem FS.get_del_self (fs : FS) (p : FsPath) : FS.get (FS.del fs p) p = none := by
  simp only [FS.get, FS.del]
  rw [List.find?_eq_none.mpr]
  intro kv hkv
  have := (List.mem_filter.mp hkv).2
  simpa using this

theorem FS.get_del_ne (fs : FS) (p q : FsPath) (h : q ≠ p) :
    FS.get (FS.del fs p) q = FS.get fs q := by
  simp only [FS.get, FS.del]
  rw [find_filter_ne fs p q h]

theorem FS.statAux_of_get_none {fs : FS} {p : FsPath} (h : FS.get fs p = none) :
    ∀ fuel, FS.statAux fs fuel p = none := by
  intro fuel
  cases fuel with
  | zero => simp [FS.statAux, h]
  | succ f => simp [FS.statAux, h]

theorem FS.statAux_of_get_regular {fs : FS} {p : FsPath} {c : Content}
    (h : FS.get fs p = some (.regular c)) :
    ∀ fuel, FS.statAux fs fuel p = some (.regular c) := by
  intro fuel
  cases fuel with
  | zero => simp [FS.statAux, h]
  | succ f => simp [FS.statAux, h]

theorem FS.statAux_of_get_dir {fs : FS} {p : FsPath} (h : FS.get fs p = some .dir) :
    ∀ fuel, FS.statAux fs fuel p = some .dir := by
  intro fuel
  cases fuel with
  | zero => simp [FS.statAux, h]
  | succ f => simp [FS.statAux, h]

theorem FS.stat_of_get_regular {fs : FS} {p : FsPath} {c : Content}
    (h : FS.get fs p = some (.regular c)) : FS.stat fs p = some (.regular c) :=
  FS.statAux_of_get_regular h statFuel

theorem FS.stat_of_get_none {fs : FS} {p : FsPath} (h : FS.get fs p = none) :
    FS.stat fs p = none :=
  FS.statAux_of_get_none h statFuel

theorem os_path_exists_of_get_none {fs : FS} {p : FsPath} (h : FS.get fs p = none) :
    os_path_exists fs p = false := by
  simp [os_path_exists, FS.stat_of_get_none h]

theorem os_path_exists_of_get_regular {fs : FS} {p : FsPath} {c : Content}
    (h : FS.get fs p = some (.regular c)) : os_path_exists fs p = true := by
  simp [os_path_exists, FS.stat_of_get_regular h]

theorem os_path_isfile_of_get_regular {fs : FS} {p : FsPath} {c : Content}
    (h : FS.get fs p = some (.regular c)) : os_path_isfile fs p = true := by
  simp [os_path_isfile, FS.stat_of_get_regular h]

theorem os_path_islink_of_get_regular {fs : FS} {p : FsPath} {c : Content}
    (h : FS.get fs p = some (.regular c)) : os_path_islink fs p = false := by
  simp [os_path_islink, h]

theorem openForWrite_succ_of_get_none {fs : FS} {p : FsPath} (h : FS.get fs p = none)
    (fuel : Nat) : openForWrite fs (fuel + 1) p = some p := by
  simp [openForWrite, h]

theorem openForWrite_succ_of_get_regular {fs : FS} {p : FsPath} {c : Content}
    (h : FS.get fs p = some (.regular c)) (fuel : Nat) :
    openForWrite fs (fuel + 1) p = some p := by
  simp [openForWrite, h]

theorem openForWrite_statFuel_of_get_none {fs : FS} {p : FsPath} (h : FS.get fs p = none) :
    openForWrite fs statFuel p = some p :=
  openForWrite_succ_of_get_none h 39

theorem openForWrite_statFuel_of_get_regular {fs : FS} {p : FsPath} {c : Content}
    (h : FS.get fs p = some (.regular c)) : openForWrite fs statFuel p = some p :=
  openForWrite_succ_of_get_regular h 39

/-! ### Claims about the container wrapper and the engine adapter -/

/-- Filesystem for the C2 counterexample: a regular payload and a regular
file already occupying the destination zip path. -/
def fsC2 : FS := [("payload", Entry.regular (Content.bytes [1, 2, 3])),
                  ("dest.zip", Entry.regular (Content.bytes [9]))]

/-- Claim C2 counterexample: a regular file already exists at "dest.zip",
yet `wrap_in_zip` succeeds (no error) and silently replaces that file with
the new container — `zipfile.ZipFile(dest, "w")` truncates instead of
failing, refuting the claim that Wrap fails and leaves the pre-existing
file unchanged. -/
theorem wrap_in_zip_overwrites_existing :
    FS.get fsC2 "dest.zip" = some (Entry.regular (Content.bytes [9])) ∧
    (wrap_in_zip fsC2 "payload" "dest.zip").1 = none ∧
    FS.get (wrap_in_zip fsC2 "payload" "dest.zip").2 "dest.zip" =
      some (Entry.regular (Content.zipArchive [("payload", Content.bytes [1, 2, 3])])) :=
  ⟨rfl, rfl, rfl⟩

/-- Claim C2 (amended): `wrap_in_zip` does not check `destZipPath`: when a
regular file already exists there it succeeds and silently overwrites it
with the new single-member container (collision avoidance is the caller's
job, performed beforehand with `ensure_unique_path`); `wrap_in_zip` fails
only on a non-regular payload. -/
theorem wrap_in_zip_amended (fs : FS) (payload dest : FsPath) (c0 c : Content)
    (hpay : FS.get fs payload = some (.regular c))
    (hdst : FS.get fs dest = some (.regular c0)) :
    (wrap_in_zip fs payload dest).1 = none ∧
    (wrap_in_zip fs payload dest).2 =
      FS.set fs dest (.regular (.zipArchive [(basename payload, c)])) := by
  unfold wrap_in_zip
  rw [if_neg (by
    rw [os_path_islink_of_get_regular hpay, os_path_isfile_of_get_regular hpay]; simp)]
  simp only [FS.stat_of_get_regular hpay, openForWrite_statFuel_of_get_regular hdst]
  constructor <;> trivial

/-- Witness for `wrap_in_zip_amended` at the concrete filesystem `fsC2`. -/
theorem wrap_in_zip_amended_witness :
    (wrap_in_zip fsC2 "payload" "dest.zip").1 = none ∧
    (wrap_in_zip fsC2 "payload" "dest.zip").2 =
      FS.set fsC2 "dest.zip"
        (Entry.regular (Content.zipArchive [(basename "payload", Content.bytes [1, 2, 3])])) :=
  wrap_in_zip_amended fsC2 "payload" "dest.zip" (Content.bytes [9]) (Content.bytes [1, 2, 3])
    rfl rfl

/-- Filesystem for the C6 failing input: the destination path is occupied
by a dangling symbolic link. -/
def fsC6 : FS := [("in.txt", Entry.regular (Content.bytes [1])),
                  ("payload", Entry.symlink "gone")]

/-- Claim C6 evaluation at the failing input: `destPathNoExt` is occupied
by a dangling symlink, but `encrypt_with_7z` succeeds and silently
replaces the symlink — because the guard is behind `os.path.exists`, which
follows links and returns False for a broken link, so the
`islink`/`isfile` refusal is never reached and `os.replace` clobbers the
link.  The claim (and the spec: "never a symlink") requires a hard
failure here. -/
theorem encrypt_with_7z_clobbers_dangling_symlink :
    FS.get fsC6 "payload" = some (Entry.symlink "gone") ∧
    (encrypt_with_7z engAll0 fsC6 "7z" "in.txt" "payload" "pw").1 = none ∧
    FS.get (encrypt_with_7z engAll0 fsC6 "7z" "in.txt" "payload" "pw").2 "payload" =
      some (Entry.regular (Content.enc "in.txt" (Content.bytes [1]) "pw")) :=
  ⟨rfl, rfl, rfl⟩

/-- Claim C7: wrapping a non-empty regular file into a fresh zip container
and unwrapping that container yields a byte-identical file, the container
holds exactly one member, and `extract_single_member_zip` fails on any
other member count. -/
theorem wrap_unwrap_roundtrip (fs : FS) (payload final outDir : FsPath) (l : List Nat)
    (hne : l ≠ [])
    (hpay : FS.get fs payload = some (.regular (.bytes l)))
    (hfree : FS.get fs final = none) :
    ((wrap_in_zip fs payload final).1 = none ∧
     FS.get (wrap_in_zip fs payload final).2 final =
       some (.regular (.zipArchive [(basename payload, .bytes l)])) ∧
     extract_single_member_zip (wrap_in_zip fs payload final).2 final outDir =
       .ok (FS.set (wrap_in_zip fs payload final).2 (pathJoin outDir (basename payload))
              (.regular (.bytes l)),
            pathJoin outDir (basename payload)) ∧
     FS.get (FS.set (wrap_in_zip fs payload final).2 (pathJoin outDir (basename payload))
              (.regular (.bytes l))) (pathJoin outDir (basename payload)) =
       some (.regular (.bytes l))) ∧
    (∀ (gs : FS) (zp od : FsPath) (ms : List (String × Content)),
      FS.stat gs zp = some (.regular (.zipArchive ms)) → ms.length ≠ 1 →
      ∃ e, extract_single_member_zip gs zp od = .error e) := by
  have hwrap : wrap_in_zip fs payload final =
      (none, FS.set fs final (.regular (.zipArchive [(basename payload, .bytes l)]))) := by
    unfold wrap_in_zip
    rw [if_neg (by
      rw [os_path_islink_of_get_regular hpay, os_path_isfile_of_get_regular hpay]; simp)]
    simp only [FS.stat_of_get_regular hpay, openForWrite_statFuel_of_get_none hfree]
  have hget1 : FS.get (FS.set fs final
      (.regular (.zipArchive [(basename payload, .bytes l)]))) final =
      some (.regular (.zipArchive [(basename payload, .bytes l)])) :=
    FS.get_set_self _ _ _
  have hext : extract_single_member_zip
      (FS.set fs final (.regular (.zipArchive [(basename payload, .bytes l)]))) final outDir =
      .ok (FS.set (FS.set fs final (.regular (.zipArchive [(basename payload, .bytes l)])))
             (pathJoin outDir (basename payload)) (.regular (.bytes l)),
           pathJoin outDir (basename payload)) := by
    unfold extract_single_member_zip
    rw [FS.stat_of_get_regular hget1]
  refine ⟨⟨by rw [hwrap], by rw [hwrap]; exact hget1, by rw [hwrap]; exact hext,
    FS.get_set_self _ _ _⟩, ?_⟩
  intro gs zp od ms hstat hlen
  unfold extract_single_member_zip
  rw [hstat]
  match ms, hlen with
  | [], _ => exact ⟨_, rfl⟩
  | [(n, c)], hlen => simp at hlen
  | (n1, c1) :: (n2, c2) :: rest, _ => exact ⟨_, rfl⟩

/-- Witness for `wrap_unwrap_roundtrip` at a one-file filesystem. -/
theorem wrap_unwrap_roundtrip_witness :
    (wrap_in_zip [("p", Entry.regular (Content.bytes [7]))] "p" "c.zip").1 = none :=
  (wrap_unwrap_roundtrip [("p", Entry.regular (Content.bytes [7]))] "p" "c.zip" "out" [7]
    (by simp) rfl rfl).1.1

/-! ### Self-test verifier -/

/-- Known content written by the self-test (`b"self-test: content\nline2\n"`). -/
def sampleBytes : List Nat := "self-test: content\nline2\n".data.map Char.toNat

/-- Embedding of `self_test` (`src/code.py` lines 370-424).  The two
generated secrets are parameters (their random draws do not influence
control flow).  Exceptions are explicit: `.error msg` is a raised
`RuntimeError` propagating out of `self_test`.  The final wrong-password
step reproduces the source exactly: the block

    try:
        decrypt_7z_payload(..., wrong_password)
        raise RuntimeError("Self-test failed: wrong password unexpectedly succeeded")
    except RuntimeError:
        pass

catches every `RuntimeError` raised inside it — both the expected failure
of `decrypt_7z_payload` and the "unexpectedly succeeded" raise itself —
so control always falls through to `return 0`. -/
def self_test (eng : Engine) (sevenZip test_password wrong_password : String) :
    Except String Nat :=
  let td : FsPath := "td"
  let src_dir := pathJoin td "src"
  let mid_dir := pathJoin td "mid"
  let out_dir := pathJoin td "out"
  let sample_path := pathJoin src_dir "sample.txt"
  let fs0 : FS := [(sample_path, .regular (.bytes sampleBytes))]
  let payload_no_ext := pathJoin mid_dir "payload_no_ext"
  match encrypt_with_7z eng fs0 sevenZip sample_path payload_no_ext test_password with
  | (some e, _) => .error e
  | (none, fs1) =>
    let zip_path := pathJoin mid_dir "wrapped.zip"
    match wrap_in_zip fs1 payload_no_ext zip_path with
    | (some e, _) => .error e
    | (none, fs2) =>
      match extract_single_member_zip fs2 zip_path out_dir with
      | .error e => .error e
      | .ok (fs3, extracted_payload) =>
        let dec_dir := pathJoin out_dir "dec"
        match decrypt_7z_payload eng fs3 sevenZip extracted_payload dec_dir test_password with
        | (some e, _) => .error e
        | (none, fs4) =>
          let decrypted_sample := pathJoin dec_dir "sample.txt"
          if !os_path_isfile fs4 decrypted_sample then
            .error "Self-test failed: decrypted file not found (sample.txt)"
          else
            let got := match FS.stat fs4 decrypted_sample with
              | some (.regular (.bytes b)) => b
              | _ => []
            if got ≠ sampleBytes then
              .error "Self-test failed: decrypted content mismatch"
            else
              let wrong_dir := pathJoin out_dir "wrong"
              match decrypt_7z_payload eng fs4 sevenZip extracted_payload wrong_dir
                  wrong_password with
              | (some _, _) => .ok 0
              | (none, _) => .ok 0

/-- Embedding of the `--self-test` branch of `main` (`src/code.py` lines
458-465): a normal return of `self_test` becomes the process exit code,
any propagated exception prints FAIL and yields exit code 2. -/
def main_self_test (eng : Engine) (sevenZip test_password wrong_password : String) : Nat :=
  match self_test eng sevenZip test_password wrong_password with
  | .ok rc => rc
  | .error _ => 2

/-! ### Batch orchestrator -/

/-- Per-file outcome of the batch loop, carrying the exact message that
`main` appends to the audit log for this file. -/
inductive Outcome where
  | success (msg : String)
  | failed (msg : String)
deriving DecidableEq, Repr

/-- Python `repr` of a `RuntimeError` carrying `msg` (quoting of the
argument is abstracted away). -/
def reprRuntimeError (msg : String) : String := "RuntimeError(" ++ msg ++ ")"

/-- Embedding of one iteration body of the batch loop of `main`
(`src/code.py` lines 490-512): pick the random intermediate name, resolve
a unique destination, encrypt, wrap, clean up the intermediate payload,
and produce the per-file outcome together with the resulting filesystem.
Any raised error is caught by the per-file `except` and becomes a
`.failed` outcome whose message is the logged `Error:` line. -/
def process_one (eng : Engine) (sevenZip pw : String) (fs : FS) (file_path : FsPath)
    (rnd_name : String) : FS × Outcome :=
  let parent_dir := dirname file_path
  let out_no_ext_path := pathJoin parent_dir rnd_name
  let desired_zip := pathJoin parent_dir (basename file_path ++ ".zip")
  let final_zip_path := ensure_unique_path (os_path_exists fs) (fs.length + 1) desired_zip
  match encrypt_with_7z eng fs sevenZip file_path out_no_ext_path pw with
  | (some e, fs1) => (fs1, .failed ("Error: " ++ file_path ++ " | " ++ reprRuntimeError e))
  | (none, fs1) =>
    match wrap_in_zip fs1 out_no_ext_path final_zip_path with
    | (some e, fs2) => (fs2, .failed ("Error: " ++ file_path ++ " | " ++ reprRuntimeError e))
    | (none, fs2) =>
      if os_path_exists fs2 out_no_ext_path then
        if os_path_islink fs2 out_no_ext_path || !os_path_isfile fs2 out_no_ext_path then
          (fs2, .failed ("Error: " ++ file_path ++ " | " ++
            reprRuntimeError ("Refusing to delete non-regular file: " ++ out_no_ext_path)))
        else
          (os_remove fs2 out_no_ext_path,
           .success ("Success: " ++ file_path ++ " -> " ++ final_zip_path))
      else
        (fs2, .success ("Success: " ++ file_path ++ " -> " ++ final_zip_path))

/-- Embedding of the batch loop of `main` (`src/code.py` lines 483-512):
fold over the candidate files; a file whose resolved real path equals the
log file's real path is skipped before any processing (`continue`), with
no random name consumed, no log line and no counter change.  `realpath`
is the `os.path.realpath` oracle and `rnd` the stream of
`uuid.uuid4().hex` names.  Returns the final filesystem, the per-file log
lines in order, and the success and error counters. -/
def batch_loop (eng : Engine) (sevenZip pw log_path : String) (realpath : FsPath → FsPath)
    (rnd : Nat → String) : FS → List FsPath → Nat → FS × List String × Nat × Nat
  | fs, [], _ => (fs, [], 0, 0)
  | fs, f :: rest, k =>
    if realpath f = realpath log_path then
      batch_loop eng sevenZip pw log_path realpath rnd fs rest k
    else
      match process_one eng sevenZip pw fs f (rnd k) with
      | (fs2, .success m) =>
        let r := batch_loop eng sevenZip pw log_path realpath rnd fs2 rest (k + 1)
        (r.1, m :: r.2.1, r.2.2.1 + 1, r.2.2.2)
      | (fs2, .failed m) =>
        let r := batch_loop eng sevenZip pw log_path realpath rnd fs2 rest (k + 1)
        (r.1, m :: r.2.1, r.2.2.1, r.2.2.2 + 1)

/-- The fixed archive-suffix set of `main` (`src/code.py` lines 470-472). -/
def excluded_exts : List String :=
  [".zip", ".7z", ".rar", ".gz", ".xz", ".bz2", ".tar", ".tgz", ".zst"]

/-- Python `str.lower` (ASCII). -/
def pyLower (s : String) : String := ⟨s.data.map Char.toLower⟩

/-- Candidate filtering of `main` (`src/code.py` line 475): drop every
file whose own extension (lowercased) is a known archive suffix. -/
def filter_candidates (files : List FsPath) : List FsPath :=
  files.filter (fun f => !(excluded_exts.contains (pyLower (splitext f).2)))

/-- The messages `main` appends to the audit log over a whole
uninterrupted run (`src/code.py` lines 468-519), in order: the start
line, one line per processed file, and the completion line.  Timestamps
prepended by `log_message` are independent of the run and are abstracted
away. -/
def run_main_logs (eng : Engine) (sevenZip pw log_path : String) (realpath : FsPath → FsPath)
    (rnd : Nat → String) (fs : FS) (candidates : List FsPath) : List String :=
  let all_files := filter_candidates candidates
  let r := batch_loop eng sevenZip pw log_path realpath rnd fs all_files 0
  "Run started (password not logged)." :: r.2.1 ++
    ["Completed. Total candidates: " ++ pyStr all_files.length ++
     " | Successes: " ++ pyStr r.2.2.1 ++ " | Errors: " ++ pyStr r.2.2.2]

/-! ### Claims about the self-test and the batch orchestrator -/

/-- Claim C1 evaluation at the failing input: with a regressed engine for
which every invocation exits 0 (so decrypting with the wrong password
"succeeds"), the wrong-password guard of `self_test` is swallowed by its
own `except RuntimeError: pass` — the raised "unexpectedly succeeded"
error is a `RuntimeError` caught by the very handler meant only for the
expected decrypt failure — and the self-test entry point reports success
(exit code 0) instead of the distinct failure (exit code 2) the claim
requires. -/
theorem self_test_wrong_password_success_not_reported :
    (engAll0 ["7z", "x", "-y", "-t7z", "-pCc33Dd44", "-otd/out/wrong",
        "td/out/payload_no_ext"]).code = 0 ∧
    main_self_test engAll0 "7z" "Aa11Bb22" "Cc33Dd44" = 0 ∧
    main_self_test engAll0 "7z" "Aa11Bb22" "Cc33Dd44" ≠ 2 :=
  ⟨rfl, rfl, by decide⟩

/-- Claim C10: a candidate whose resolved real path equals the log file's
real path is skipped by the batch loop before any processing: the
iteration changes nothing — no `Encrypt`/`Wrap` invocation can be
reflected in the filesystem, no log line is recorded, and neither counter
moves. -/
theorem batch_loop_skips_log_file (eng : Engine) (sevenZip pw log_path : String)
    (realpath : FsPath → FsPath) (rnd : Nat → String) (fs : FS) (f : FsPath)
    (rest : List FsPath) (k : Nat) (h : realpath f = realpath log_path) :
    batch_loop eng sevenZip pw log_path realpath rnd fs (f :: rest) k =
    batch_loop eng sevenZip pw log_path realpath rnd fs rest k := by
  simp [batch_loop, h]

/-- Witness for `batch_loop_skips_log_file`: the log file itself as the
only candidate leaves the loop state exactly as an empty candidate list
does. -/
theorem batch_loop_skips_log_file_witness :
    batch_loop engAll0 "7z" "Pw" "d/log.txt" id (fun _ => "cafe") [] ["d/log.txt"] 0 =
    batch_loop engAll0 "7z" "Pw" "d/log.txt" id (fun _ => "cafe") [] [] 0 :=
  batch_loop_skips_log_file engAll0 "7z" "Pw" "d/log.txt" id (fun _ => "cafe") [] "d/log.txt"
    [] 0 rfl

/-- Filesystem for the C8 counterexample: the candidate "d/a.txt" and an
already existing archive "d/a.txt.zip" with the matching base name in the
same directory. -/
def fsC8 : FS := [("d/a.txt", Entry.regular (Content.bytes [104, 105])),
                  ("d/a.txt.zip", Entry.regular (Content.bytes [0]))]

/-- Claim C8 counterexample: although the archive "d/a.txt.zip" with the
matching base name already exists next to "d/a.txt", the batch loop does
not skip the file: the candidate filter only drops files whose own
extension is an archive suffix, and the run then encrypts and wraps
"d/a.txt" again (success counter 1, a Success log line) into the
disambiguated container "d/a.txt.1.zip" (the pre-existing archive itself
is left untouched). -/
theorem batch_loop_reprocesses_archived :
    filter_candidates ["d/a.txt", "d/a.txt.zip"] = ["d/a.txt"] ∧
    (batch_loop engAll0 "7z" "Pw" "d/log.txt" id (fun _ => "cafe") fsC8
        ["d/a.txt"] 0).2.2.1 = 1 ∧
    (batch_loop engAll0 "7z" "Pw" "d/log.txt" id (fun _ => "cafe") fsC8
        ["d/a.txt"] 0).2.1 = ["Success: d/a.txt -> d/a.txt.1.zip"] ∧
    FS.get (batch_loop engAll0 "7z" "Pw" "d/log.txt" id (fun _ => "cafe") fsC8
        ["d/a.txt"] 0).1 "d/a.txt.zip" = some (Entry.regular (Content.bytes [0])) :=
  ⟨rfl, rfl, rfl, rfl⟩

/-! ### Helper lemmas for the orchestrator claims -/

theorem ne_append_7z (p : FsPath) : p ≠ p ++ ".7z" := by
  intro h
  have hd := congrArg (fun s => s.data.length) h
  simp [String.data_append] at hd

theorem encrypt_with_7z_fresh (eng : Engine) (fs : FS) (sevenZip f out pw : String)
    (hout : FS.get fs out = none)
    (heng : (eng [sevenZip, "a", "-t7z", "-p" ++ pw, "-mhe=on", out ++ ".7z", f]).code = 0) :
    encrypt_with_7z eng fs sevenZip f out pw =
      (none, FS.set (FS.del (FS.set fs (out ++ ".7z")
          (.regular (.enc (basename f) (srcContentFor fs f) pw))) (out ++ ".7z")) out
        (.regular (.enc (basename f) (srcContentFor fs f) pw))) := by
  unfold encrypt_with_7z
  rw [if_neg (by simp [heng])]
  have hg1 : FS.get (FS.set fs (out ++ ".7z")
      (.regular (.enc (basename f) (srcContentFor fs f) pw))) out = none := by
    rw [FS.get_set_ne _ _ _ _ (ne_append_7z out)]
    exact hout
  simp only []
  rw [os_path_exists_of_get_none hg1]
  simp only [Bool.false_eq_true, if_false]
  unfold os_replace
  rw [FS.get_set_self]

theorem wrap_in_zip_fresh (fs : FS) (payload final : FsPath) (c : Content)
    (hpay : FS.get fs payload = some (.regular c))
    (hfree : FS.get fs final = none) :
    wrap_in_zip fs payload final =
      (none, FS.set fs final (.regular (.zipArchive [(basename payload, c)]))) := by
  unfold wrap_in_zip
  rw [if_neg (by
    rw [os_path_islink_of_get_regular hpay, os_path_isfile_of_get_regular hpay]; simp)]
  simp [FS.stat_of_get_regular hpay, openForWrite_statFuel_of_get_none hfree]

/-- Claim C8 (amended): the orchestrator has no matching-base-name skip: a
candidate is excluded from processing only when its own extension is a
known archive suffix (`filter_candidates`), and a file whose desired
archive path `base.zip` is already occupied by a regular file is still
encrypted and wrapped (recorded as a Success, not a Skip); however the
pre-existing archive itself is never touched: the new container goes to
the first free disambiguated path, which differs from the occupied
desired path.  The freshness hypotheses model the uuid-based intermediate
name and the resolver's disambiguated output being genuinely new paths. -/
theorem process_one_no_skip_amended (eng : Engine) (sevenZip pw : String) (fs : FS)
    (f rnd_name : FsPath) (c0 : Content)
    (hdes : FS.get fs (pathJoin (dirname f) (basename f ++ ".zip")) =
      some (Entry.regular c0))
    (hout : FS.get fs (pathJoin (dirname f) rnd_name) = none)
    (htmp : FS.get fs (pathJoin (dirname f) rnd_name ++ ".7z") = none)
    (hfinal : FS.get fs (ensure_unique_path (os_path_exists fs) (fs.length + 1)
        (pathJoin (dirname f) (basename f ++ ".zip"))) = none)
    (hne1 : ensure_unique_path (os_path_exists fs) (fs.length + 1)
        (pathJoin (dirname f) (basename f ++ ".zip")) ≠ pathJoin (dirname f) rnd_name)
    (hne2 : ensure_unique_path (os_path_exists fs) (fs.length + 1)
        (pathJoin (dirname f) (basename f ++ ".zip")) ≠
      pathJoin (dirname f) rnd_name ++ ".7z")
    (heng : (eng [sevenZip, "a", "-t7z", "-p" ++ pw, "-mhe=on",
        pathJoin (dirname f) rnd_name ++ ".7z", f]).code = 0) :
    (process_one eng sevenZip pw fs f rnd_name).2 =
      Outcome.success ("Success: " ++ f ++ " -> " ++
        ensure_unique_path (os_path_exists fs) (fs.length + 1)
          (pathJoin (dirname f) (basename f ++ ".zip"))) ∧
    ensure_unique_path (os_path_exists fs) (fs.length + 1)
        (pathJoin (dirname f) (basename f ++ ".zip")) ≠
      pathJoin (dirname f) (basename f ++ ".zip") ∧
    FS.get (process_one eng sevenZip pw fs f rnd_name).1
        (pathJoin (dirname f) (basename f ++ ".zip")) = some (Entry.regular c0) := by
  have hodzne : pathJoin (dirname f) rnd_name ≠ pathJoin (dirname f) (basename f ++ ".zip") := by
    intro h
    rw [h, hdes] at hout
    cases hout
  have htdzne : pathJoin (dirname f) rnd_name ++ ".7z" ≠
      pathJoin (dirname f) (basename f ++ ".zip") := by
    intro h
    rw [h, hdes] at htmp
    cases htmp
  have hfd : ensure_unique_path (os_path_exists fs) (fs.length + 1)
      (pathJoin (dirname f) (basename f ++ ".zip")) ≠
      pathJoin (dirname f) (basename f ++ ".zip") := by
    intro h
    rw [h, hdes] at hfinal
    cases hfinal
  have henc := encrypt_with_7z_fresh eng fs sevenZip f (pathJoin (dirname f) rnd_name) pw
    hout heng
  set cE : Content := Content.enc (basename f) (srcContentFor fs f) pw with hcE
  set fs2 : FS := FS.set (FS.del (FS.set fs (pathJoin (dirname f) rnd_name ++ ".7z")
      (Entry.regular cE)) (pathJoin (dirname f) rnd_name ++ ".7z"))
      (pathJoin (dirname f) rnd_name) (Entry.regular cE) with hfs2
  have hg2out : FS.get fs2 (pathJoin (dirname f) rnd_name) = some (Entry.regular cE) := by
    rw [hfs2]
    exact FS.get_set_self _ _ _
  have hg2gen : ∀ q, q ≠ pathJoin (dirname f) rnd_name →
      q ≠ pathJoin (dirname f) rnd_name ++ ".7z" → FS.get fs2 q = FS.get fs q := by
    intro q h1 h2
    rw [hfs2, FS.get_set_ne _ _ _ _ h1, FS.get_del_ne _ _ _ h2, FS.get_set_ne _ _ _ _ h2]
  have hg2final : FS.get fs2 (ensure_unique_path (os_path_exists fs) (fs.length + 1)
      (pathJoin (dirname f) (basename f ++ ".zip"))) = none := by
    rw [hg2gen _ hne1 hne2]
    exact hfinal
  have hwrap := wrap_in_zip_fresh fs2 (pathJoin (dirname f) rnd_name)
    (ensure_unique_path (os_path_exists fs) (fs.length + 1)
      (pathJoin (dirname f) (basename f ++ ".zip"))) cE hg2out hg2final
  set fs3 : FS := FS.set fs2 (ensure_unique_path (os_path_exists fs) (fs.length + 1)
      (pathJoin (dirname f) (basename f ++ ".zip")))
      (Entry.regular (Content.zipArchive [(basename (pathJoin (dirname f) rnd_name), cE)]))
    with hfs3
  have hg3out : FS.get fs3 (pathJoin (dirname f) rnd_name) = some (Entry.regular cE) := by
    rw [hfs3, FS.get_set_ne _ _ _ _ (Ne.symm hne1)]
    exact hg2out
  have hres : process_one eng sevenZip pw fs f rnd_name =
      (FS.del fs3 (pathJoin (dirname f) rnd_name),
       Outcome.success ("Success: " ++ f ++ " -> " ++
         ensure_unique_path (os_path_exists fs) (fs.length + 1)
           (pathJoin (dirname f) (basename f ++ ".zip")))) := by
    unfold process_one
    simp only [henc, hwrap, os_remove, os_path_exists_of_get_regular hg3out,
      os_path_islink_of_get_regular hg3out, os_path_isfile_of_get_regular hg3out]
    simp
  refine ⟨by rw [hres], hfd, ?_⟩
  rw [hres]
  show FS.get (FS.del fs3 (pathJoin (dirname f) rnd_name))
    (pathJoin (dirname f) (basename f ++ ".zip")) = some (Entry.regular c0)
  rw [FS.get_del_ne _ _ _ (Ne.symm hodzne), hfs3,
    FS.get_set_ne _ _ _ _ (Ne.symm hfd), hg2gen _ (Ne.symm hodzne) (Ne.symm htdzne)]
  exact hdes

/-- Witness for `process_one_no_skip_amended` at the concrete C8
filesystem. -/
theorem process_one_no_skip_amended_witness :
    (process_one engAll0 "7z" "Pw" fsC8 "d/a.txt" "cafe").2 =
      Outcome.success ("Success: " ++ "d/a.txt" ++ " -> " ++
        ensure_unique_path (os_path_exists fsC8) (fsC8.length + 1)
          (pathJoin (dirname "d/a.txt") (basename "d/a.txt" ++ ".zip"))) ∧
    ensure_unique_path (os_path_exists fsC8) (fsC8.length + 1)
        (pathJoin (dirname "d/a.txt") (basename "d/a.txt" ++ ".zip")) ≠
      pathJoin (dirname "d/a.txt") (basename "d/a.txt" ++ ".zip") ∧
    FS.get (process_one engAll0 "7z" "Pw" fsC8 "d/a.txt" "cafe").1
        (pathJoin (dirname "d/a.txt") (basename "d/a.txt" ++ ".zip")) =
      some (Entry.regular (Content.bytes [0])) :=
  process_one_no_skip_amended engAll0 "7z" "Pw" fsC8 "d/a.txt" "cafe"
    (Content.bytes [0]) rfl rfl rfl rfl (by decide) (by decide) rfl

/-! ### Shape invariance: the loop's control flow and log output depend
only on the filesystem's shape (keys and entry kinds), never on file
contents — in particular never on the secret embedded in encrypted
contents. -/

/-- Entry kind with symlink target: everything the orchestrator's checks
(`exists`/`islink`/`isfile` and the resolver) can observe. -/
inductive EntryShape where
  | file
  | link (target : FsPath)
  | dirShape
deriving DecidableEq

def Entry.shape : Entry → EntryShape
  | .regular _ => .file
  | .symlink t => .link t
  | .dir => .dirShape

def FS.shape (fs : FS) : List (FsPath × EntryShape) :=
  fs.map (fun kv => (kv.1, Entry.shape kv.2))

def FS.getShape (fs : FS) (p : FsPath) : Option EntryShape :=
  (FS.get fs p).map Entry.shape

theorem getShape_eq_of_shape_eq {fs1 fs2 : FS} (h : FS.shape fs1 = FS.shape fs2) :
    ∀ p, FS.getShape fs1 p = FS.getShape fs2 p := by
  induction fs1 generalizing fs2 with
  | nil =>
    intro p
    have h2 : fs2 = [] := by
      cases fs2 with
      | nil => rfl
      | cons kv rest => simp [FS.shape] at h
    subst h2
    rfl
  | cons kv rest ih =>
    intro p
    cases fs2 with
    | nil => simp [FS.shape] at h
    | cons kv2 rest2 =>
      simp only [FS.shape, List.map_cons, List.cons.injEq, Prod.mk.injEq] at h
      obtain ⟨⟨hk, hs⟩, htail⟩ := h
      by_cases hp : kv.1 = p
      · simp only [FS.getShape, FS.get, List.find?_cons, show (kv.1 == p) = true by simp [hp],
          show (kv2.1 == p) = true by simp [hk ▸ hp]]
        simpa using hs
      · simp only [FS.getShape, FS.get, List.find?_cons, show (kv.1 == p) = false by simp [hp],
          show (kv2.1 == p) = false by simp [hk ▸ hp]]
        exact ih htail p

theorem getShape_cases {fs1 fs2 : FS}
    (h : ∀ p, FS.getShape fs1 p = FS.getShape fs2 p) (p : FsPath) :
    (FS.get fs1 p = none ∧ FS.get fs2 p = none) ∨
    (∃ c1 c2, FS.get fs1 p = some (.regular c1) ∧ FS.get fs2 p = some (.regular c2)) ∨
    (∃ t, FS.get fs1 p = some (.symlink t) ∧ FS.get fs2 p = some (.symlink t)) ∨
    (FS.get fs1 p = some .dir ∧ FS.get fs2 p = some .dir) := by
  have hp := h p
  simp only [FS.getShape] at hp
  cases hg1 : FS.get fs1 p with
  | none =>
    rw [hg1] at hp
    left
    refine ⟨rfl, ?_⟩
    cases hg2 : FS.get fs2 p with
    | none => rfl
    | some e2 => rw [hg2] at hp; simp at hp
  | some e1 =>
    rw [hg1] at hp
    cases hg2 : FS.get fs2 p with
    | none => rw [hg2] at hp; simp at hp
    | some e2 =>
      rw [hg2] at hp
      simp only [Option.map_some', Option.some.injEq] at hp
      cases e1 with
      | regular c1 =>
        cases e2 with
        | regular c2 => exact Or.inr (Or.inl ⟨c1, c2, rfl, rfl⟩)
        | symlink t => simp [Entry.shape] at hp
        | dir => simp [Entry.shape] at hp
      | symlink t1 =>
        cases e2 with
        | regular c => simp [Entry.shape] at hp
        | symlink t2 =>
          have ht : t1 = t2 := by simpa [Entry.shape] using hp
          subst ht
          exact Or.inr (Or.inr (Or.inl ⟨t1, rfl, rfl⟩))
        | dir => simp [Entry.shape] at hp
      | dir =>
        cases e2 with
        | regular c => simp [Entry.shape] at hp
        | symlink t => simp [Entry.shape] at hp
        | dir => exact Or.inr (Or.inr (Or.inr ⟨rfl, rfl⟩))

theorem statAux_shape {fs1 fs2 : FS}
    (h : ∀ p, FS.getShape fs1 p = FS.getShape fs2 p) :
    ∀ fuel p, (FS.statAux fs1 fuel p).map Entry.shape =
      (FS.statAux fs2 fuel p).map Entry.shape := by
  intro fuel
  induction fuel with
  | zero =>
    intro p
    rcases getShape_cases h p with ⟨h1, h2⟩ | ⟨c1, c2, h1, h2⟩ | ⟨t, h1, h2⟩ | ⟨h1, h2⟩ <;>
      simp [FS.statAux, h1, h2, Entry.shape]
  | succ fuel ih =>
    intro p
    rcases getShape_cases h p with ⟨h1, h2⟩ | ⟨c1, c2, h1, h2⟩ | ⟨t, h1, h2⟩ | ⟨h1, h2⟩
    · simp [FS.statAux, h1, h2]
    · simp [FS.statAux, h1, h2, Entry.shape]
    · simp only [FS.statAux, h1, h2]
      exact ih t
    · simp [FS.statAux, h1, h2, Entry.shape]

theorem os_path_exists_shape {fs1 fs2 : FS}
    (h : ∀ p, FS.getShape fs1 p = FS.getShape fs2 p) (p : FsPath) :
    os_path_exists fs1 p = os_path_exists fs2 p := by
  have hs := statAux_shape h statFuel p
  simp only [os_path_exists, FS.stat]
  cases h1 : FS.statAux fs1 statFuel p <;> cases h2 : FS.statAux fs2 statFuel p <;>
    rw [h1, h2] at hs <;> simp_all

theorem os_path_isfile_shape {fs1 fs2 : FS}
    (h : ∀ p, FS.getShape fs1 p = FS.getShape fs2 p) (p : FsPath) :
    os_path_isfile fs1 p = os_path_isfile fs2 p := by
  have hs := statAux_shape h statFuel p
  simp only [os_path_isfile, FS.stat]
  cases h1 : FS.statAux fs1 statFuel p with
  | none =>
    rw [h1] at hs
    cases h2 : FS.statAux fs2 statFuel p <;> rw [h2] at hs <;> simp_all
  | some e1 =>
    rw [h1] at hs
    cases h2 : FS.statAux fs2 statFuel p with
    | none => rw [h2] at hs; simp at hs
    | some e2 =>
      rw [h2] at hs
      simp only [Option.map_some', Option.some.injEq] at hs
      cases e1 <;> cases e2 <;> simp_all [Entry.shape]

theorem os_path_islink_shape {fs1 fs2 : FS}
    (h : ∀ p, FS.getShape fs1 p = FS.getShape fs2 p) (p : FsPath) :
    os_path_islink fs1 p = os_path_islink fs2 p := by
  rcases getShape_cases h p with ⟨h1, h2⟩ | ⟨c1, c2, h1, h2⟩ | ⟨t, h1, h2⟩ | ⟨h1, h2⟩ <;>
    simp [os_path_islink, h1, h2]

theorem openForWrite_shape {fs1 fs2 : FS}
    (h : ∀ p, FS.getShape fs1 p = FS.getShape fs2 p) :
    ∀ fuel p, openForWrite fs1 fuel p = openForWrite fs2 fuel p := by
  intro fuel
  induction fuel with
  | zero => intro p; rfl
  | succ fuel ih =>
    intro p
    rcases getShape_cases h p with ⟨h1, h2⟩ | ⟨c1, c2, h1, h2⟩ | ⟨t, h1, h2⟩ | ⟨h1, h2⟩
    · simp [openForWrite, h1, h2]
    · simp [openForWrite, h1, h2]
    · simp only [openForWrite, h1, h2]
      exact ih t
    · simp [openForWrite, h1, h2]

theorem shape_filter (fs : FS) (p : FsPath) :
    FS.shape (fs.filter (fun kv => kv.1 != p)) =
    (FS.shape fs).filter (fun kv => kv.1 != p) := by
  induction fs with
  | nil => rfl
  | cons kv rest ih =>
    by_cases hk : kv.1 = p
    · simp [FS.shape, List.filter_cons, hk] at ih ⊢
      exact ih
    · simp [FS.shape, List.filter_cons, hk] at ih ⊢
      exact ih

theorem shape_set_eq {fs1 fs2 : FS} (h : FS.shape fs1 = FS.shape fs2) (p : FsPath)
    {e1 e2 : Entry} (he : Entry.shape e1 = Entry.shape e2) :
    FS.shape (FS.set fs1 p e1) = FS.shape (FS.set fs2 p e2) := by
  show (p, Entry.shape e1) :: FS.shape (fs1.filter (fun kv => kv.1 != p)) =
       (p, Entry.shape e2) :: FS.shape (fs2.filter (fun kv => kv.1 != p))
  rw [he, shape_filter, shape_filter, h]

theorem shape_del_eq {fs1 fs2 : FS} (h : FS.shape fs1 = FS.shape fs2) (p : FsPath) :
    FS.shape (FS.del fs1 p) = FS.shape (FS.del fs2 p) := by
  show FS.shape (fs1.filter (fun kv => kv.1 != p)) = FS.shape (fs2.filter (fun kv => kv.1 != p))
  rw [shape_filter, shape_filter, h]

theorem length_eq_of_shape_eq {fs1 fs2 : FS} (h : FS.shape fs1 = FS.shape fs2) :
    fs1.length = fs2.length := by
  have := congrArg List.length h
  simpa [FS.shape] using this

theorem encrypt_shape (eng : Engine) {fs1 fs2 : FS} (h : FS.shape fs1 = FS.shape fs2)
    (sevenZip f out : String) {pw1 pw2 : String}
    (heng : eng [sevenZip, "a", "-t7z", "-p" ++ pw1, "-mhe=on", out ++ ".7z", f] =
            eng [sevenZip, "a", "-t7z", "-p" ++ pw2, "-mhe=on", out ++ ".7z", f]) :
    (encrypt_with_7z eng fs1 sevenZip f out pw1).1 =
      (encrypt_with_7z eng fs2 sevenZip f out pw2).1 ∧
    FS.shape (encrypt_with_7z eng fs1 sevenZip f out pw1).2 =
      FS.shape (encrypt_with_7z eng fs2 sevenZip f out pw2).2 := by
  have hgs := getShape_eq_of_shape_eq h
  unfold encrypt_with_7z
  simp only []
  rw [← heng]
  by_cases hc : (eng [sevenZip, "a", "-t7z", "-p" ++ pw1, "-mhe=on", out ++ ".7z", f]).code ≠ 0
  · rw [if_pos hc, if_pos hc]
    exact ⟨rfl, h⟩
  · rw [if_neg hc, if_neg hc]
    have hset : FS.shape (FS.set fs1 (out ++ ".7z")
        (.regular (.enc (basename f) (srcContentFor fs1 f) pw1))) =
        FS.shape (FS.set fs2 (out ++ ".7z")
        (.regular (.enc (basename f) (srcContentFor fs2 f) pw2))) :=
      shape_set_eq h _ rfl
    have hgs1 := getShape_eq_of_shape_eq hset
    rw [os_path_exists_shape hgs1 out, os_path_islink_shape hgs1 out,
      os_path_isfile_shape hgs1 out]
    by_cases hex : os_path_exists (FS.set fs2 (out ++ ".7z")
        (.regular (.enc (basename f) (srcContentFor fs2 f) pw2))) out = true
    · rw [if_pos hex, if_pos hex]
      by_cases hlk : (os_path_islink (FS.set fs2 (out ++ ".7z")
          (.regular (.enc (basename f) (srcContentFor fs2 f) pw2))) out ||
          !os_path_isfile (FS.set fs2 (out ++ ".7z")
          (.regular (.enc (basename f) (srcContentFor fs2 f) pw2))) out) = true
      · rw [if_pos hlk, if_pos hlk]
        exact ⟨rfl, hset⟩
      · rw [if_neg hlk, if_neg hlk]
        refine ⟨rfl, ?_⟩
        simp only [os_replace, os_remove]
        rw [FS.get_del_ne _ _ _ (Ne.symm (ne_append_7z out)), FS.get_set_self,
          FS.get_del_ne _ _ _ (Ne.symm (ne_append_7z out)), FS.get_set_self]
        exact shape_set_eq (shape_del_eq (shape_del_eq hset out) (out ++ ".7z")) out rfl
    · rw [if_neg hex, if_neg hex]
      refine ⟨rfl, ?_⟩
      simp only [os_replace]
      rw [FS.get_set_self, FS.get_set_self]
      exact shape_set_eq (shape_del_eq hset (out ++ ".7z")) out rfl

theorem wrap_shape {fs1 fs2 : FS} (h : FS.shape fs1 = FS.shape fs2) (payload final : FsPath) :
    (wrap_in_zip fs1 payload final).1 = (wrap_in_zip fs2 payload final).1 ∧
    FS.shape (wrap_in_zip fs1 payload final).2 = FS.shape (wrap_in_zip fs2 payload final).2 := by
  have hgs := getShape_eq_of_shape_eq h
  unfold wrap_in_zip
  rw [os_path_islink_shape hgs payload, os_path_isfile_shape hgs payload]
  by_cases hrf : (os_path_islink fs2 payload || !os_path_isfile fs2 payload) = true
  · rw [if_pos hrf, if_pos hrf]
    exact ⟨rfl, h⟩
  · rw [if_neg hrf, if_neg hrf]
    rw [openForWrite_shape hgs statFuel final]
    cases ho : openForWrite fs2 statFuel final with
    | none => exact ⟨rfl, h⟩
    | some tgt => exact ⟨rfl, shape_set_eq h tgt rfl⟩

theorem process_one_shape (eng : Engine) (sevenZip : String) {pw1 pw2 : String}
    {fs1 fs2 : FS} (h : FS.shape fs1 = FS.shape fs2) (f rnd_name : FsPath)
    (heng : ∀ tmp inf, eng [sevenZip, "a", "-t7z", "-p" ++ pw1, "-mhe=on", tmp, inf] =
                       eng [sevenZip, "a", "-t7z", "-p" ++ pw2, "-mhe=on", tmp, inf]) :
    (process_one eng sevenZip pw1 fs1 f rnd_name).2 =
      (process_one eng sevenZip pw2 fs2 f rnd_name).2 ∧
    FS.shape (process_one eng sevenZip pw1 fs1 f rnd_name).1 =
      FS.shape (process_one eng sevenZip pw2 fs2 f rnd_name).1 := by
  have hgs := getShape_eq_of_shape_eq h
  have hocc : os_path_exists fs1 = os_path_exists fs2 := funext (os_path_exists_shape hgs)
  have hlen : fs1.length = fs2.length := length_eq_of_shape_eq h
  unfold process_one
  simp only []
  rw [hocc, hlen]
  rcases hp1 : encrypt_with_7z eng fs1 sevenZip f (pathJoin (dirname f) rnd_name) pw1
    with ⟨err1, fsa⟩
  rcases hp2 : encrypt_with_7z eng fs2 sevenZip f (pathJoin (dirname f) rnd_name) pw2
    with ⟨err2, fsb⟩
  obtain ⟨he1, he2⟩ := encrypt_shape eng h sevenZip f (pathJoin (dirname f) rnd_name)
    (heng (pathJoin (dirname f) rnd_name ++ ".7z") f)
  rw [hp1, hp2] at he1 he2
  simp only [] at he1 he2
  subst he1
  cases err1 with
  | some e => exact ⟨rfl, he2⟩
  | none =>
    simp only []
    rcases hq1 : wrap_in_zip fsa (pathJoin (dirname f) rnd_name)
        (ensure_unique_path (os_path_exists fs2) (fs2.length + 1)
          (pathJoin (dirname f) (basename f ++ ".zip"))) with ⟨werr1, fsc⟩
    rcases hq2 : wrap_in_zip fsb (pathJoin (dirname f) rnd_name)
        (ensure_unique_path (os_path_exists fs2) (fs2.length + 1)
          (pathJoin (dirname f) (basename f ++ ".zip"))) with ⟨werr2, fsd⟩
    obtain ⟨hw1, hw2⟩ := wrap_shape he2 (pathJoin (dirname f) rnd_name)
      (ensure_unique_path (os_path_exists fs2) (fs2.length + 1)
        (pathJoin (dirname f) (basename f ++ ".zip")))
    rw [hq1, hq2] at hw1 hw2
    simp only [] at hw1 hw2
    subst hw1
    cases werr1 with
    | some e => exact ⟨rfl, hw2⟩
    | none =>
      simp only []
      have hgsc := getShape_eq_of_shape_eq hw2
      rw [os_path_exists_shape hgsc (pathJoin (dirname f) rnd_name),
        os_path_islink_shape hgsc (pathJoin (dirname f) rnd_name),
        os_path_isfile_shape hgsc (pathJoin (dirname f) rnd_name)]
      by_cases hex : os_path_exists fsd (pathJoin (dirname f) rnd_name) = true
      · rw [if_pos hex, if_pos hex]
        by_cases hlk : (os_path_islink fsd (pathJoin (dirname f) rnd_name) ||
            !os_path_isfile fsd (pathJoin (dirname f) rnd_name)) = true
        · rw [if_pos hlk, if_pos hlk]
          exact ⟨rfl, hw2⟩
        · rw [if_neg hlk, if_neg hlk]
          exact ⟨rfl, shape_del_eq hw2 _⟩
      · rw [if_neg hex, if_neg hex]
        exact ⟨rfl, hw2⟩

theorem batch_loop_shape (eng : Engine) (sevenZip : String) {pw1 pw2 : String}
    (log_path : String) (realpath : FsPath → FsPath) (rnd : Nat → String)
    (heng : ∀ tmp inf, eng [sevenZip, "a", "-t7z", "-p" ++ pw1, "-mhe=on", tmp, inf] =
                       eng [sevenZip, "a", "-t7z", "-p" ++ pw2, "-mhe=on", tmp, inf]) :
    ∀ (files : List FsPath) (fs1 fs2 : FS) (k : Nat), FS.shape fs1 = FS.shape fs2 →
      (batch_loop eng sevenZip pw1 log_path realpath rnd fs1 files k).2 =
        (batch_loop eng sevenZip pw2 log_path realpath rnd fs2 files k).2 ∧
      FS.shape (batch_loop eng sevenZip pw1 log_path realpath rnd fs1 files k).1 =
        FS.shape (batch_loop eng sevenZip pw2 log_path realpath rnd fs2 files k).1 := by
  intro files
  induction files with
  | nil =>
    intro fs1 fs2 k h
    exact ⟨rfl, h⟩
  | cons f rest ih =>
    intro fs1 fs2 k h
    by_cases hrp : realpath f = realpath log_path
    · simp only [batch_loop, if_pos hrp]
      exact ih fs1 fs2 k h
    · simp only [batch_loop, if_neg hrp]
      obtain ⟨ho, hs⟩ := process_one_shape eng sevenZip h f (rnd k) heng
      rcases hp1 : process_one eng sevenZip pw1 fs1 f (rnd k) with ⟨fsa, oa⟩
      rcases hp2 : process_one eng sevenZip pw2 fs2 f (rnd k) with ⟨fsb, ob⟩
      rw [hp1, hp2] at ho hs
      simp only at ho hs
      subst ho
      obtain ⟨hr2, hr1⟩ := ih fsa fsb (k + 1) hs
      cases oa with
      | success m =>
        simp only []
        constructor
        · rw [hr2]
        · exact hr1
      | failed m =>
        simp only []
        constructor
        · rw [hr2]
        · exact hr1

/-- Claim C9: the audit-log content is independent of the secret.  Two
runs over the same filesystem and candidates, differing only in the
password, append exactly the same sequence of log messages — provided the
engine's observable result on the encrypt command does not depend on the
password component of the command line (the claim's caveat that engine
diagnostics do not embed the secret); timestamps are outside the model. -/
theorem run_logs_independent_of_secret (eng : Engine) (sevenZip log_path : String)
    (realpath : FsPath → FsPath) (rnd : Nat → String) (fs : FS) (candidates : List FsPath)
    (pw1 pw2 : String)
    (heng : ∀ tmp inf, eng [sevenZip, "a", "-t7z", "-p" ++ pw1, "-mhe=on", tmp, inf] =
                       eng [sevenZip, "a", "-t7z", "-p" ++ pw2, "-mhe=on", tmp, inf]) :
    run_main_logs eng sevenZip pw1 log_path realpath rnd fs candidates =
    run_main_logs eng sevenZip pw2 log_path realpath rnd fs candidates := by
  obtain ⟨h2, -⟩ := batch_loop_shape eng sevenZip log_path realpath rnd heng
    (filter_candidates candidates) fs fs 0 rfl
  unfold run_main_logs
  simp only []
  rw [h2]

/-- Witness for `run_logs_independent_of_secret`: the constant-result
engine `engAll0` trivially satisfies the diagnostics hypothesis, and two
runs with different passwords log the same lines. -/
theorem run_logs_independent_of_secret_witness :
    run_main_logs engAll0 "7z" "PwA" "d/log.txt" id (fun _ => "cafe")
      [("d/a.txt", Entry.regular (Content.bytes [104]))] ["d/a.txt"] =
    run_main_logs engAll0 "7z" "PwB" "d/log.txt" id (fun _ => "cafe")
      [("d/a.txt", Entry.regular (Content.bytes [104]))] ["d/a.txt"] :=
  run_logs_independent_of_secret engAll0 "7z" "d/log.txt" id (fun _ => "cafe")
    [("d/a.txt", Entry.regular (Content.bytes [104]))] ["d/a.txt"] "PwA" "PwB"
    (fun _ _ => rfl)
